import Mathlib

/-!
A shallow embedding of the EPUB-handling core of the repository
(`src-tauri/src/handlers/epub_handler.rs`) together with proofs about it.

External effects (repository database, file system, `Epub::open`) are made
explicit as parameters; `Result` values become `Except`/`Option`;
Rust `Vec<u8>` becomes `List Nat`.  Archive-internal paths are modelled as
`String` values manipulated through their character lists, so that the
semantics of `std::path` on Unix (where `\` is an ordinary character, not a
separator) is reproduced exactly.
-/

namespace Stellaron

/-! ## Character-list utilities shared by the embedding -/

/-- Split a character list at `/` separators.  Always returns at least one
(possibly empty) piece, exactly like splitting a string on a separator. -/
def splitSlash : List Char → List (List Char)
  | [] => [[]]
  | c :: cs =>
    let rest := splitSlash cs
    if c = '/' then [] :: rest
    else
      match rest with
      | [] => [[c]]
      | p :: ps => (c :: p) :: ps

/-- Join pieces with `/` separators (inverse of `splitSlash` on slash-free
nonempty pieces). -/
def joinSlash : List (List Char) → List Char
  | [] => []
  | [p] => p
  | p :: ps => p ++ '/' :: joinSlash ps

/-- The character map realising Rust's `str::replace('\\', "/")` (a
single-character pattern replacement is exactly a character-wise map). -/
def toSlashChar (c : Char) : Char := if c = '\\' then '/' else c

/-- Model of Rust `str::starts_with` on string slices. -/
def strStartsWith (s p : String) : Bool := p.data.isPrefixOf s.data

/-- Model of Rust `str::contains` (substring containment). -/
def strContainsSub (s p : String) : Bool := decide (p.data <:+: s.data)

/-! ## Path Resolver (`resolve_path`, epub_handler.rs lines 239–276)

`std::path::Path` on Unix parses a path into components: a leading `/`
becomes `RootDir`, empty segments produced by repeated separators are
dropped, `.` segments are normalized away except when a relative path
begins with one (which yields a `CurDir` component), `..` becomes
`ParentDir`, and everything else is a `Normal` component. -/

inductive PComp where
  | rootDir : PComp
  | curDir : PComp
  | parentDir : PComp
  | normal : List Char → PComp
deriving DecidableEq, Repr

/-- Convert one nonempty, non-`.` raw segment into its component. -/
def segToComp (seg : List Char) : PComp :=
  if seg = ['.', '.'] then PComp.parentDir else PComp.normal seg

/-- Rust `Path::is_absolute` / `has_root` on Unix: the path starts with `/`. -/
def startsSlash (s : List Char) : Bool := decide (s.head? = some '/')

/-- Rust `Path::components()` of a Unix path given as a character list. -/
def rustComponents (s : List Char) : List PComp :=
  let segs := (splitSlash s).filter (· ≠ [])
  (if startsSlash s then [PComp.rootDir] else []) ++
    (if startsSlash s = false ∧ segs.head? = some ['.'] then [PComp.curDir]
      else []) ++
    ((segs.filter (· ≠ ['.'])).map segToComp)

/-- Rust `Path::parent()`: strip the final component; `none` for the empty path
and for the root path (Rust returns `None` exactly in those cases). -/
def rustParent (s : List Char) : Option (List PComp) :=
  let comps := rustComponents s
  if comps = [] ∨ comps = [PComp.rootDir] then none
  else some comps.dropLast

/-- One step of the normalization loop of `resolve_path`: the state is the
accumulator vector plus the `is_absolute` flag; `RootDir` sets the flag,
`Normal` pushes, `ParentDir` pops (`Vec::pop` on an empty vector is a
no-op), and `CurDir` is ignored. -/
def normStep (st : List (List Char) × Bool) (c : PComp) :
    List (List Char) × Bool :=
  match c with
  | PComp.rootDir => (st.1, true)
  | PComp.normal seg => (st.1 ++ [seg], st.2)
  | PComp.parentDir => (st.1.dropLast, st.2)
  | PComp.curDir => st

/-- The normalization loop folded over a component list. -/
def normLoop (comps : List PComp) : List (List Char) × Bool :=
  comps.foldl normStep ([], false)

/-- Reassemble the accumulator, prefixing `/` when the joined path was
absolute (`result.push("/")` followed by pushing each component). -/
def renderPath (isAbs : Bool) (segs : List (List Char)) : List Char :=
  (if isAbs then ['/'] else []) ++ joinSlash segs

/-- The function `resolve_path` from epub_handler.rs.  `Path::join` replaces the base
when the argument is absolute; component lists of the joined path are
computed at the component level (`parent ++ components reference`), which
agrees with re-parsing the rendered join except for the placement of
`CurDir` components, which the loop ignores.  The final
`.replace('\\', "/")` is the character map `toSlashChar`. -/
def resolve_path (base_href relative_path : String) : String :=
  let r := relative_path.data
  let resolved : List Char :=
    match rustParent base_href.data with
    | some parent =>
      let joined :=
        if startsSlash r then rustComponents r
        else parent ++ rustComponents r
      let st := normLoop joined
      renderPath st.2 st.1
    | none => r
  String.mk (resolved.map toSlashChar)

/-! ## Path Resolver, spec-side (`resolveSpec`)

Modelled from the spec's words (§4.2): "take the directory portion of
`base_href`; join with `reference`; split into segments; process each
segment — a `.` segment is dropped, a `..` segment pops the most recently
pushed segment from an accumulator (if the accumulator is empty, the `..`
is silently discarded), any other segment is pushed; reassemble the
accumulator with `/` separators, preserving a leading `/` if the joined
path was archive-absolute.  Any backslash separators present in the input
are converted to `/` in the output."  The directory portion is everything
up to and including the final `/` (empty when the base has no `/`); joining
an archive-absolute reference replaces the base; empty pseudo-segments
arising from repeated separators are ignored. -/

/-- The directory portion of a base href: the prefix up to and including
the last `/`, or `[]` when there is no `/`. -/
def dirWithSlash (b : List Char) : List Char :=
  (b.reverse.dropWhile (· ≠ '/')).reverse

/-- One step of the spec's segment-processing loop. -/
def specStep (acc : List (List Char)) (seg : List Char) : List (List Char) :=
  if seg = ['.'] then acc
  else if seg = ['.', '.'] then acc.dropLast
  else acc ++ [seg]

/-- The spec's resolution algorithm, written from the spec's words. -/
def resolveSpec (base_href relative_path : String) : String :=
  let r := relative_path.data
  let joined :=
    if startsSlash r then r else dirWithSlash base_href.data ++ r
  let segs := (splitSlash joined).filter (· ≠ [])
  let acc := segs.foldl specStep []
  String.mk ((renderPath (startsSlash joined) acc).map toSlashChar)

/-- The slash-separated segments of a string, for stating the "no `.` or
unresolved `..` segments" property of resolved references. -/
def pathSegments (s : String) : List String :=
  (splitSlash s.data).map String.mk

/-- A base href whose final raw slash-segment is a normal name: nonempty
and neither `.` nor `..`.  On such bases `Path::parent` agrees with the
textual directory portion. -/
def goodBaseL (b : List Char) : Bool :=
  match (splitSlash b).getLast? with
  | some l => l ≠ [] ∧ l ≠ ['.'] ∧ l ≠ ['.', '.']
  | none => false

/-- The predicate `goodBaseL`, lifted to strings. -/
def goodBase (b : String) : Bool := goodBaseL b.data

/-- Glue a piece onto the first piece of a split (used to state how
`splitSlash` acts on concatenation). -/
def glueFirst (p : List Char) : List (List Char) → List (List Char)
  | [] => [p]
  | q :: qs => (p ++ q) :: qs

/-! ### Lemmas about `dirWithSlash` -/

/-- The raw final slash-segment of a base href. -/
def lastRawSeg (b : List Char) : List Char :=
  (b.reverse.takeWhile (· ≠ '/')).reverse

/-! ## Container model

`rbook`'s opened `Epub` is modelled structurally: the manifest is a list of
resources (id, href, declared media type, byte/text accessors whose `Err`
outcomes are `none`), the spine an ordered list of idrefs, plus package
metadata and the optional designated cover resource.  The text content of a
markup resource is modelled in tokenized form: a list of chunks, each either
a literal text run or one match of the `<img ... src="...">` (resp.
`<image ... href="...">`) rewrite patterns of `get_epub_content`, split
into the capture groups (group 1 = prefix including the opening quote,
group 2 = the reference, group 3 = suffix including the closing quote);
re-rendering a chunk concatenates the three groups, so an untouched chunk
re-renders to the byte-identical original match.  The HTML parse performed
after the rewrite passes is modelled by the optional body region carrying
the chunks of the body's inner content (content outside the body region is
dropped by the body extraction and therefore not modelled). -/

inductive Chunk where
  | text : String → Chunk
  | imgTag : String → String → String → Chunk
  | imageTag : String → String → String → Chunk
deriving DecidableEq, Repr

/-- A parsed markup document: the optional body region's inner chunks. -/
structure XhtmlDoc where
  body? : Option (List Chunk)
deriving DecidableEq, Repr

/-- One manifest resource: `read_resource_str`/`read_bytes` failures are
`none`. -/
structure Resource where
  id : String
  href : String
  mediaType : String
  content : Option XhtmlDoc
  bytes : Option (List Nat)
deriving DecidableEq, Repr

/-- One spine entry (`itemref`). -/
structure SpineEntry where
  idref : String
deriving DecidableEq, Repr

/-- Package metadata as exposed by `rbook`. -/
structure EpubMeta where
  titles : List String
  creators : List String
  publishers : List String
  publicationDate : Option String
  identifiers : List String
deriving DecidableEq, Repr

/-- An opened EPUB container. -/
structure Epub where
  manifest : List Resource
  spine : List SpineEntry
  metadata : EpubMeta
  coverImage : Option Resource
deriving DecidableEq, Repr

/-- Lookup `manifest().by_id`: exact match. -/
def by_id (manifest : List Resource) (idref : String) : Option Resource :=
  manifest.find? (fun res => res.id == idref)

/-- Lookup `manifest().by_href`: exact match. -/
def by_href (manifest : List Resource) (href : String) : Option Resource :=
  manifest.find? (fun res => res.href == href)

/-! ## Base64 (the `STANDARD` engine of the `base64` crate) -/

def b64Alphabet : List Char :=
  "ABCDEFGHIJKLMNOPQRSTUVWXYZabcdefghijklmnopqrstuvwxyz0123456789+/".data

def b64Char (n : Nat) : Char := b64Alphabet.getD n '='

/-- Standard base64 with `=` padding, on byte values. -/
def base64Encode : List Nat → List Char
  | [] => []
  | [a] =>
    [b64Char (a / 4), b64Char (a % 4 * 16), '=', '=']
  | [a, b] =>
    [b64Char (a / 4), b64Char (a % 4 * 16 + b / 16), b64Char (b % 16 * 4),
      '=']
  | a :: b :: c :: rest =>
    b64Char (a / 4) :: b64Char (a % 4 * 16 + b / 16) ::
      b64Char (b % 16 * 4 + c / 64) :: b64Char (c % 64) ::
      base64Encode rest

/-- The data URL `format!("data:{};base64,{}", mime_type, encoded)`. -/
def dataUrl (mime_type : String) (bs : List Nat) : String :=
  "data:" ++ mime_type ++ ";base64," ++ String.mk (base64Encode bs)

/-! ## Content Assembler (`get_epub_content`, epub_handler.rs 148–237) -/

/-- The `<img>` rewrite pass (first `replace_all`): data-embedded and
network references are left untouched; otherwise the reference is resolved
against the current resource's href and looked up by href; on lookup or
read failure the original match is returned unchanged. -/
def processImg (epub : Epub) (current_href : String) : Chunk → Chunk
  | Chunk.imgTag pre src suf =>
    if strStartsWith src "data:" || strStartsWith src "http" then
      Chunk.imgTag pre src suf
    else
      let resolved_href := resolve_path current_href src
      match by_href epub.manifest resolved_href with
      | some image_resource =>
        match image_resource.bytes with
        | some image_bytes =>
          Chunk.imgTag pre (dataUrl image_resource.mediaType image_bytes) suf
        | none => Chunk.imgTag pre src suf
      | none => Chunk.imgTag pre src suf
  | c => c

/-- The `<image>` rewrite pass (second `replace_all`), identical policy. -/
def processImage (epub : Epub) (current_href : String) : Chunk → Chunk
  | Chunk.imageTag pre src suf =>
    if strStartsWith src "data:" || strStartsWith src "http" then
      Chunk.imageTag pre src suf
    else
      let resolved_href := resolve_path current_href src
      match by_href epub.manifest resolved_href with
      | some image_resource =>
        match image_resource.bytes with
        | some image_bytes =>
          Chunk.imageTag pre (dataUrl image_resource.mediaType image_bytes)
            suf
        | none => Chunk.imageTag pre src suf
      | none => Chunk.imageTag pre src suf
  | c => c

/-- Re-render one chunk to text. -/
def renderChunk : Chunk → String
  | Chunk.text s => s
  | Chunk.imgTag pre src suf => pre ++ src ++ suf
  | Chunk.imageTag pre src suf => pre ++ src ++ suf

/-- Re-render a chunk list (`body_node.inner_html()`). -/
def renderChunks (chunks : List Chunk) : String :=
  String.join (chunks.map renderChunk)

/-- The body fragment contributed by a markup resource with body chunks:
both rewrite passes in order, then rendering. -/
def bodyFragment (epub : Epub) (res : Resource) (chunks : List Chunk) :
    String :=
  renderChunks ((chunks.map (processImg epub res.href)).map
    (processImage epub res.href))

/-- What one spine entry contributes to the combined output: nothing when
its idref has no manifest resource, the media type is not exactly
`application/xhtml+xml`, the text cannot be read, or the parsed document
has no body. -/
def fragmentOf (epub : Epub) (item_ref : SpineEntry) : String :=
  match by_id epub.manifest item_ref.idref with
  | some resource =>
    if resource.mediaType == "application/xhtml+xml" then
      match resource.content with
      | some doc =>
        match doc.body? with
        | some chunks => bodyFragment epub resource chunks
        | none => ""
      | none => ""
    else ""
  | none => ""

/-- The function `get_epub_content` on an opened container: walk the spine in order,
appending each entry's fragment to the cumulative buffer (failure of
`Epub::open` is the only error of the original function and is modelled
upstream of this definition). -/
def get_epub_content (epub : Epub) : String :=
  epub.spine.foldl (fun combined_html e => combined_html ++ fragmentOf epub e)
    ""

/-- Spine entries whose resource is a markup (`application/xhtml+xml`)
document. -/
def isMarkup (epub : Epub) (e : SpineEntry) : Bool :=
  match by_id epub.manifest e.idref with
  | some res => res.mediaType == "application/xhtml+xml"
  | none => false

def markupEntries (epub : Epub) : List SpineEntry :=
  epub.spine.filter (isMarkup epub)

/-- The full contribution condition of one spine entry. -/
def contributes (epub : Epub) (e : SpineEntry) : Bool :=
  match by_id epub.manifest e.idref with
  | some res =>
    res.mediaType == "application/xhtml+xml" &&
      (match res.content with
       | some doc => doc.body?.isSome
       | none => false)
  | none => false

/-- Every markup spine document is readable and has a body region (the
hypothesis under which the spec's N-fragments claim is stated). -/
def markupReadable (epub : Epub) : Bool :=
  epub.spine.all (fun e =>
    match by_id epub.manifest e.idref with
    | some res =>
      if res.mediaType == "application/xhtml+xml" then
        match res.content with
        | some doc => doc.body?.isSome
        | none => false
      else true
    | none => true)

/-- C1 witness: a concrete two-document container. -/
def epubC1 : Epub :=
  { manifest :=
      [ { id := "c1", href := "ch1.xhtml",
          mediaType := "application/xhtml+xml",
          content := some ⟨some [Chunk.text "<p>one</p>"]⟩, bytes := none },
        { id := "c2", href := "ch2.xhtml",
          mediaType := "application/xhtml+xml",
          content := some ⟨some [Chunk.text "<p>two</p>"]⟩, bytes := none },
        { id := "css", href := "style.css", mediaType := "text/css",
          content := none, bytes := some [1, 2] } ],
    spine := [⟨"c1"⟩, ⟨"css"⟩, ⟨"c2"⟩],
    metadata := ⟨[], [], [], none, []⟩,
    coverImage := none }

/-- C6 witness: a concrete container with a dangling image reference. -/
def epubC6 : Epub :=
  { manifest :=
      [ { id := "c1", href := "ch1.xhtml",
          mediaType := "application/xhtml+xml",
          content := some ⟨some [Chunk.imgTag "<img src=\x22" "missing.png"
            "\x22/>"]⟩,
          bytes := none } ],
    spine := [⟨"c1"⟩],
    metadata := ⟨[], [], [], none, []⟩,
    coverImage := none }

/-- C10 witness: a concrete container with a `text/html` entry (skipped),
an unreadable entry (skipped) and a passing entry. -/
def epubC10 : Epub :=
  { manifest :=
      [ { id := "a", href := "a.xhtml",
          mediaType := "application/xhtml+xml",
          content := some ⟨some [Chunk.text "A"]⟩, bytes := none },
        { id := "b", href := "b.html", mediaType := "text/html",
          content := some ⟨some [Chunk.text "B"]⟩, bytes := none },
        { id := "c", href := "c.xhtml",
          mediaType := "application/xhtml+xml",
          content := none, bytes := none } ],
    spine := [⟨"a"⟩, ⟨"b"⟩, ⟨"c"⟩, ⟨"missing"⟩],
    metadata := ⟨[], [], [], none, []⟩,
    coverImage := none }

/-! ## Metadata Extractor (`parse_epub_meta`, epub_handler.rs 53–111) and
Cover Streamer (`get_cover_image_streamed`, epub_handler.rs 383–401)

The file system is an explicit map from paths to optional byte contents
(`none` models an I/O error), and `Epub::open` an explicit map from paths
to `Except`; the book repository lookup of the cover streamer is the
optional `Book` argument. -/

structure BookMetadata where
  title : String
  authors : List String
  published_date : Option String
  publishers : List String
  isbn : Option String
  file_path : String
  cover_data : Option (List Nat × String)
  checksum : String
deriving DecidableEq, Repr

/-- The persisted book record, as far as the cover streamer consults it. -/
structure Book where
  file_path : Option String
deriving DecidableEq, Repr

/-! ### SHA-256 (the `sha2` crate's `Sha256::digest`), per FIPS 180-4,
on byte values with 32-bit words as `Nat` reduced modulo `2^32` -/

def M32 : Nat := 4294967296

def rotr32 (n x : Nat) : Nat := ((x >>> n) ||| (x <<< (32 - n))) % M32

def shaCh (x y z : Nat) : Nat := (x &&& y) ^^^ ((x ^^^ 4294967295) &&& z)

def shaMaj (x y z : Nat) : Nat := (x &&& y) ^^^ (x &&& z) ^^^ (y &&& z)

def bigSigma0 (x : Nat) : Nat := rotr32 2 x ^^^ rotr32 13 x ^^^ rotr32 22 x

def bigSigma1 (x : Nat) : Nat := rotr32 6 x ^^^ rotr32 11 x ^^^ rotr32 25 x

def smallSigma0 (x : Nat) : Nat := rotr32 7 x ^^^ rotr32 18 x ^^^ (x >>> 3)

def smallSigma1 (x : Nat) : Nat :=
  rotr32 17 x ^^^ rotr32 19 x ^^^ (x >>> 10)

/-- The sixty-four round constants, written in decimal. -/
def shaK : List Nat :=
  [1116352408, 1899447441, 3049323471, 3921009573, 961987163,
   1508970993, 2453635748, 2870763221, 3624381080, 310598401,
   607225278, 1426881987, 1925078388, 2162078206, 2614888103,
   3248222580, 3835390401, 4022224774, 264347078, 604807628,
   770255983, 1249150122, 1555081692, 1996064986, 2554220882,
   2821834349, 2952996808, 3210313671, 3336571891, 3584528711,
   113926993, 338241895, 666307205, 773529912, 1294757372,
   1396182291, 1695183700, 1986661051, 2177026350, 2456956037,
   2730485921, 2820302411, 3259730800, 3345764771, 3516065817,
   3600352804, 4094571909, 275423344, 430227734, 506948616,
   659060556, 883997877, 958139571, 1322822218, 1537002063,
   1747873779, 1955562222, 2024104815, 2227730452, 2361852424,
   2428436474, 2756734187, 3204031479, 3329325298]

/-- The eight initial hash words, written in decimal. -/
def shaH0 : List Nat :=
  [1779033703, 3144134277, 1013904242, 2773480762,
   1359893119, 2600822924, 528734635, 1541459225]

/-- An 8-byte big-endian encoding of the bit length. -/
def beBytes8 (n : Nat) : List Nat :=
  [n >>> 56 % 256, n >>> 48 % 256, n >>> 40 % 256, n >>> 32 % 256,
   n >>> 24 % 256, n >>> 16 % 256, n >>> 8 % 256, n % 256]

/-- Merkle–Damgård padding to a multiple of 64 bytes. -/
def sha256Pad (msg : List Nat) : List Nat :=
  msg ++ [0x80] ++ List.replicate ((119 - msg.length % 64) % 64) 0 ++
    beBytes8 (msg.length * 8)

/-- Big-endian 32-bit words from bytes. -/
def toWords : List Nat → List Nat
  | a :: b :: c :: d :: rest =>
    (((a * 256 + b) * 256 + c) * 256 + d) :: toWords rest
  | _ => []

/-- One extension step of the message schedule. -/
def scheduleStep (w : List Nat) : List Nat :=
  let n := w.length
  w ++ [(smallSigma1 (w.getD (n - 2) 0) + w.getD (n - 7) 0 +
    smallSigma0 (w.getD (n - 15) 0) + w.getD (n - 16) 0) % M32]

/-- Extend 16 words to the 64-word schedule. -/
def schedule (w : List Nat) : List Nat :=
  (List.range 48).foldl (fun acc _ => scheduleStep acc) w

/-- One compression round on the state `[a,b,c,d,e,f,g,h]`. -/
def roundStep (st : List Nat) (kw : Nat × Nat) : List Nat :=
  match st with
  | [a, b, c, d, e, f, g, hh] =>
    let t1 := (hh + bigSigma1 e + shaCh e f g + kw.1 + kw.2) % M32
    let t2 := (bigSigma0 a + shaMaj a b c) % M32
    [(t1 + t2) % M32, a, b, c, (d + t1) % M32, e, f, g]
  | st => st

/-- Compress one 64-byte block into the hash state. -/
def compressBlock (h : List Nat) (block : List Nat) : List Nat :=
  let st := ((shaK.zip (schedule (toWords block))).foldl roundStep h)
  (h.zip st).map (fun p => (p.1 + p.2) % M32)

/-- Split into 64-byte blocks (structural recursion on a fuel bound by the
length, so that the definition computes by reduction). -/
def chunksAux : Nat → List Nat → List (List Nat)
  | 0, _ => []
  | Nat.succ fuel, l =>
    if l = [] then [] else (l.take 64) :: chunksAux fuel (l.drop 64)

def chunksOf64 (l : List Nat) : List (List Nat) :=
  chunksAux l.length l

def sha256Words (msg : List Nat) : List Nat :=
  (chunksOf64 (sha256Pad msg)).foldl compressBlock shaH0

def wordBEBytes (w : Nat) : List Nat :=
  [w >>> 24 % 256, w >>> 16 % 256, w >>> 8 % 256, w % 256]

/-- The 32-byte SHA-256 digest of a byte sequence. -/
def sha256 (msg : List Nat) : List Nat :=
  ((sha256Words msg).map wordBEBytes).flatten

def hexAlphabet : List Char := "0123456789abcdef".data

def hexDigit (n : Nat) : Char := hexAlphabet.getD n 'x'

/-- One byte as two lowercase hex digits (`{:02x}`). -/
def byteToHex (b : Nat) : String :=
  String.mk [hexDigit (b / 16 % 16), hexDigit (b % 16)]

/-- A byte sequence as a lowercase hex string (`format!("{:x}", hash)`). -/
def hexOfBytes (bs : List Nat) : String :=
  String.join (bs.map byteToHex)

/-! ### Checksum Service (`compute_checksum`, epub_handler.rs 302–307) -/

/-- The function `compute_checksum`: read the whole file, digest, render lowercase
hex. -/
def compute_checksum (fs : String → Option (List Nat)) (path : String) :
    Except String String :=
  match fs path with
  | some data => Except.ok (hexOfBytes (sha256 data))
  | none => Except.error "io error"

/-! ### `parse_epub_meta` -/

def parse_epub_meta (fs : String → Option (List Nat))
    (openEpub : String → Except String Epub) (path : String) :
    Except String BookMetadata :=
  match compute_checksum fs path with
  | Except.error e => Except.error e
  | Except.ok checksum =>
    match openEpub path with
    | Except.error e => Except.error e
    | Except.ok book =>
      let metadata := book.metadata
      let title :=
        match metadata.titles.head? with
        | some t => t
        | none => "Unknown Title"
      let authors0 := metadata.creators
      let publishers0 := metadata.publishers
      let publishers :=
        if publishers0.isEmpty then publishers0 ++ ["Unknown Publisher"]
        else publishers0
      let authors :=
        if authors0.isEmpty then authors0 ++ ["Unknown Author"] else authors0
      let published_date := metadata.publicationDate
      let isbn :=
        metadata.identifiers.find? (fun i => strStartsWith i "urn:isbn:")
      let cover_data :=
        match book.coverImage with
        | some cover_image =>
          cover_image.bytes.map (fun bs => (bs, cover_image.mediaType))
        | none => none
      Except.ok
        { title := title, authors := authors,
          published_date := published_date, publishers := publishers,
          isbn := isbn, file_path := path, cover_data := cover_data,
          checksum := checksum }

/-- The metadata record produced by a successful `parse_epub_meta` (used
to state its result). -/
def metaOf (book : Epub) (path checksum : String) : BookMetadata :=
  { title :=
      match book.metadata.titles.head? with
      | some t => t
      | none => "Unknown Title",
    authors :=
      if book.metadata.creators.isEmpty then
        book.metadata.creators ++ ["Unknown Author"]
      else book.metadata.creators,
    published_date := book.metadata.publicationDate,
    publishers :=
      if book.metadata.publishers.isEmpty then
        book.metadata.publishers ++ ["Unknown Publisher"]
      else book.metadata.publishers,
    isbn := book.metadata.identifiers.find?
      (fun i => strStartsWith i "urn:isbn:"),
    file_path := path,
    cover_data :=
      match book.coverImage with
      | some cover_image =>
        cover_image.bytes.map (fun bs => (bs, cover_image.mediaType))
      | none => none,
    checksum := checksum }

/-! ### Cover Streamer -/

/-- The function `get_cover_image_streamed`: repository lookup and `Epub::open` are the
explicit arguments; note the `?` on `read_bytes()` in the source, which
propagates a read failure as an error. -/
def get_cover_image_streamed (book? : Option Book)
    (openEpub : String → Except String Epub) :
    Except String (List Nat) :=
  match book? with
  | some book =>
    match book.file_path with
    | some fp =>
      match openEpub fp with
      | Except.ok epub =>
        match epub.coverImage with
        | some cover_image =>
          match cover_image.bytes with
          | some bytes => Except.ok bytes
          | none => Except.error "failed to read cover image bytes"
        | none => Except.ok []
      | Except.error e => Except.error e
    | none => Except.error "No file path"
  | none => Except.error "Book not found"

/-! ### Font extraction (`extract_fonts_to_disk`, epub_handler.rs 311–356)

Disk writes are modelled by a `writeOk` predicate (whether
`std::fs::write` succeeds at a path) plus an explicit log of the performed
writes, so that name collisions are observable. -/

def isFontMedia (mime_type : String) : Bool :=
  strContainsSub mime_type "font" ||
    mime_type == "application/vnd.ms-opentype" ||
    mime_type == "application/x-font-ttf" ||
    mime_type == "application/x-font-otf" ||
    mime_type == "application/font-woff" ||
    mime_type == "application/font-woff2"

/-- Rust `Path::file_name()`: the final component when it is a normal name. -/
def fileName (href : List Char) : Option (List Char) :=
  match (rustComponents href).getLast? with
  | some (PComp.normal s) => some s
  | _ => none

/-- The name a font resource is written under: its declared file name, or
`font_{id}` when the declared name is unusable. -/
def fontName (resource : Resource) : String :=
  match fileName resource.href.data with
  | some f => String.mk f
  | none => "font_" ++ resource.id

/-- Rust `PathBuf::join` for the destination directory and a file name. -/
def joinDir (dir fname : String) : String :=
  if dir.data = [] then fname
  else if dir.data.getLast? = some '/' then dir ++ fname
  else dir ++ "/" ++ fname

/-- The per-resource body of the font-extraction loop. -/
def fontStep (output_dir : String) (writeOk : String → Bool)
    (st : List String × List (String × List Nat)) (resource : Resource) :
    List String × List (String × List Nat) :=
  if isFontMedia resource.mediaType then
    match resource.bytes with
    | some font_bytes =>
      let font_path := joinDir output_dir (fontName resource)
      if writeOk font_path then
        (st.1 ++ [font_path], st.2 ++ [(font_path, font_bytes)])
      else st
    | none => st
  else st

/-- The function `extract_fonts_to_disk` on an opened container: returns the collected
path list together with the write log, in manifest order. -/
def extract_fonts_to_disk (epub : Epub) (output_dir : String)
    (writeOk : String → Bool) :
    List String × List (String × List Nat) :=
  epub.manifest.foldl (fontStep output_dir writeOk) ([], [])

/-- The resources of a manifest list selected for writing: font media
type, readable bytes, successful write. -/
def selFonts (output_dir : String) (writeOk : String → Bool)
    (ms : List Resource) : List (Resource × List Nat) :=
  (ms.filterMap (fun res =>
    if isFontMedia res.mediaType then res.bytes.map (fun bs => (res, bs))
    else none)).filter
    (fun rb => writeOk (joinDir output_dir (fontName rb.1)))

/-- The manifest resources selected for writing. -/
def selectedFonts (epub : Epub) (output_dir : String)
    (writeOk : String → Bool) : List (Resource × List Nat) :=
  selFonts output_dir writeOk epub.manifest

/-- C2 counterexample: a book whose container declares a cover image with
unreadable bytes makes cover retrieval surface an error (the `?` on
`read_bytes()`), not an empty byte sequence. -/
def epubC2 : Epub :=
  { manifest := [],
    spine := [],
    metadata := ⟨[], [], [], none, []⟩,
    coverImage := some
      { id := "cov", href := "cover.png", mediaType := "image/png",
        content := none, bytes := none } }

/-- C2 witness: a concrete coverless container yields `Ok([])`. -/
def epubNoCover : Epub :=
  { manifest := [], spine := [], metadata := ⟨[], [], [], none, []⟩,
    coverImage := none }

/-- C7 witness: a concrete container with no declared metadata. -/
def epubC7 : Epub :=
  { manifest := [], spine := [], metadata := ⟨[], [], [], none, []⟩,
    coverImage := none }

/-- C9 counterexample: two font resources whose declared file names
collide are both written under the declared name — the second write
overwrites the first and no generated `font_{id}` fallback is used. -/
def epubC9 : Epub :=
  { manifest :=
      [ { id := "f1", href := "fonts/a/f.ttf", mediaType := "font/ttf",
          content := none, bytes := some [1] },
        { id := "f2", href := "fonts/b/f.ttf", mediaType := "font/ttf",
          content := none, bytes := some [2] } ],
    spine := [], metadata := ⟨[], [], [], none, []⟩, coverImage := none }

/-! ### Lemmas about `splitSlash` and friends -/

theorem splitSlash_ne_nil (l : List Char) : splitSlash l ≠ [] := by
  cases l with
  | nil => simp [splitSlash]
  | cons c cs =>
    simp only [splitSlash]
    by_cases h : c = '/'
    · simp [h]
    · simp only [h, if_false]
      cases splitSlash cs <;> simp

theorem splitSlash_cons_slash (cs : List Char) :
    splitSlash ('/' :: cs) = [] :: splitSlash cs := by
  simp [splitSlash]

theorem splitSlash_cons_ne {c : Char} (hc : c ≠ '/') (cs : List Char) :
    splitSlash (c :: cs) = glueFirst [c] (splitSlash cs) := by
  simp only [splitSlash, hc, if_false]
  cases h : splitSlash cs with
  | nil => exact absurd h (splitSlash_ne_nil cs)
  | cons q qs => simp [glueFirst]

theorem splitSlash_append (x y : List Char) :
    splitSlash (x ++ y) =
      (splitSlash x).dropLast ++
        glueFirst ((splitSlash x).getLastD []) (splitSlash y) := by
  induction x with
  | nil =>
    simp only [List.nil_append, splitSlash, List.dropLast_nil,
      List.getLastD_nil, List.nil_append]
    cases h : splitSlash y with
    | nil => exact absurd h (splitSlash_ne_nil y)
    | cons q qs => simp [glueFirst]
  | cons c x ih =>
    by_cases hc : c = '/'
    · subst hc
      rw [List.cons_append, splitSlash_cons_slash, splitSlash_cons_slash, ih]
      cases h : splitSlash x with
      | nil => exact absurd h (splitSlash_ne_nil x)
      | cons p ps => simp [List.getLastD_cons]
    · rw [List.cons_append, splitSlash_cons_ne hc, splitSlash_cons_ne hc, ih]
      cases h : splitSlash x with
      | nil => exact absurd h (splitSlash_ne_nil x)
      | cons p ps =>
        cases ps with
        | nil =>
          cases hy : splitSlash y with
          | nil => exact absurd hy (splitSlash_ne_nil y)
          | cons q qs => simp [glueFirst]
        | cons p' ps' => simp [glueFirst, List.getLastD_cons]

/-- Splitting a slash-free list yields that list as the single piece. -/
theorem splitSlash_of_no_slash {l : List Char} (h : '/' ∉ l) :
    splitSlash l = [l] := by
  induction l with
  | nil => rfl
  | cons c cs ih =>
    have hc : c ≠ '/' := fun hc => h (hc ▸ List.mem_cons_self c cs)
    have hcs : '/' ∉ cs := fun hm => h (List.mem_cons_of_mem c hm)
    simp only [splitSlash, hc, if_false, ih hcs]

theorem mem_splitSlash_no_slash :
    ∀ (l : List Char), ∀ p ∈ splitSlash l, '/' ∉ p := by
  intro l
  induction l with
  | nil => intro p hp; simp [splitSlash] at hp; simp [hp]
  | cons c cs ih =>
    intro p hp
    by_cases hc : c = '/'
    · subst hc
      rw [splitSlash_cons_slash] at hp
      rcases List.mem_cons.mp hp with h | h
      · simp [h]
      · exact ih p h
    · rw [splitSlash_cons_ne hc] at hp
      cases h : splitSlash cs with
      | nil => exact absurd h (splitSlash_ne_nil cs)
      | cons q qs =>
        rw [h] at hp
        simp only [glueFirst, List.singleton_append] at hp
        rcases List.mem_cons.mp hp with h' | h'
        · subst h'
          intro hm
          rcases List.mem_cons.mp hm with h'' | h''
          · exact hc h''.symm
          · exact ih q (h ▸ List.mem_cons_self q qs) h''
        · exact ih p (h ▸ List.mem_cons_of_mem q h')

theorem mem_of_mem_splitSlash :
    ∀ (l : List Char), ∀ p ∈ splitSlash l, ∀ c ∈ p, c ∈ l := by
  intro l
  induction l with
  | nil => intro p hp; simp [splitSlash] at hp; simp [hp]
  | cons a cs ih =>
    intro p hp c hc
    by_cases ha : a = '/'
    · subst ha
      rw [splitSlash_cons_slash] at hp
      rcases List.mem_cons.mp hp with h | h
      · simp [h] at hc
      · exact List.mem_cons_of_mem _ (ih p h c hc)
    · rw [splitSlash_cons_ne ha] at hp
      cases h : splitSlash cs with
      | nil => exact absurd h (splitSlash_ne_nil cs)
      | cons q qs =>
        rw [h] at hp
        simp only [glueFirst, List.singleton_append] at hp
        rcases List.mem_cons.mp hp with h' | h'
        · subst h'
          rcases List.mem_cons.mp hc with h'' | h''
          · exact h'' ▸ List.mem_cons_self a cs
          · exact List.mem_cons_of_mem _
              (ih q (h ▸ List.mem_cons_self q qs) c h'')
        · exact List.mem_cons_of_mem _
            (ih p (h ▸ List.mem_cons_of_mem q h') c hc)

theorem joinSlash_roundtrip :
    ∀ (L : List (List Char)), L ≠ [] → (∀ p ∈ L, '/' ∉ p) →
      splitSlash (joinSlash L) = L := by
  intro L
  induction L with
  | nil => intro h; exact absurd rfl h
  | cons p ps ih =>
    intro _ hfree
    cases ps with
    | nil =>
      simp only [joinSlash]
      exact splitSlash_of_no_slash (hfree p (List.mem_cons_self p _))
    | cons q qs =>
      have hjoin : joinSlash (p :: q :: qs) = p ++ '/' :: joinSlash (q :: qs) := rfl
      rw [hjoin, splitSlash_append p ('/' :: joinSlash (q :: qs))]
      rw [splitSlash_of_no_slash (hfree p (List.mem_cons_self p _))]
      have hrest : splitSlash ('/' :: joinSlash (q :: qs)) =
          [] :: splitSlash (joinSlash (q :: qs)) := by
        simp [splitSlash]
      rw [hrest, ih (by simp) (fun r hr => hfree r (List.mem_cons_of_mem p hr))]
      simp [glueFirst]

theorem glueFirst_nil_left {t : List (List Char)} (h : t ≠ []) :
    glueFirst [] t = t := by
  cases t with
  | nil => exact absurd rfl h
  | cons q qs => simp [glueFirst]

/-- The last piece of a split is empty exactly when the list ends in `/`
(we only need one direction). -/
theorem splitSlash_getLastD_of_endSlash {d : List Char}
    (h : d.getLast? = some '/') : (splitSlash d).getLastD [] = [] := by
  have hd : d.dropLast ++ ['/'] = d := List.dropLast_append_getLast? '/' h
  rw [← hd, splitSlash_append]
  have h1 : splitSlash ['/'] = [[], []] := rfl
  rw [h1]
  simp only [glueFirst]
  rw [show (splitSlash d.dropLast).dropLast ++
      [(splitSlash d.dropLast).getLastD [] ++ [], []] =
      ((splitSlash d.dropLast).dropLast ++
        [(splitSlash d.dropLast).getLastD [] ++ []]) ++ [[]] by simp]
  simp [List.getLastD_concat]

theorem splitSlash_append_of_endSlash {d : List Char} (r : List Char)
    (h : d.getLast? = some '/') :
    splitSlash (d ++ r) = (splitSlash d).dropLast ++ splitSlash r := by
  rw [splitSlash_append, splitSlash_getLastD_of_endSlash h,
    glueFirst_nil_left (splitSlash_ne_nil r)]

theorem mem_joinSlash :
    ∀ (L : List (List Char)), ∀ c ∈ joinSlash L, c = '/' ∨ ∃ p ∈ L, c ∈ p := by
  intro L
  induction L with
  | nil => intro c hc; simp [joinSlash] at hc
  | cons p ps ih =>
    intro c hc
    cases ps with
    | nil =>
      simp only [joinSlash] at hc
      exact Or.inr ⟨p, List.mem_cons_self p _, hc⟩
    | cons q qs =>
      have : joinSlash (p :: q :: qs) = p ++ '/' :: joinSlash (q :: qs) := rfl
      rw [this] at hc
      rcases List.mem_append.mp hc with h | h
      · exact Or.inr ⟨p, List.mem_cons_self p _, h⟩
      · rcases List.mem_cons.mp h with h' | h'
        · exact Or.inl h'
        · rcases ih c h' with h'' | ⟨r, hr, hcr⟩
          · exact Or.inl h''
          · exact Or.inr ⟨r, List.mem_cons_of_mem p hr, hcr⟩

theorem dirWithSlash_append_lastRawSeg (b : List Char) :
    dirWithSlash b ++ lastRawSeg b = b := by
  unfold dirWithSlash lastRawSeg
  rw [← List.reverse_append, List.takeWhile_append_dropWhile,
    List.reverse_reverse]

theorem no_slash_lastRawSeg (b : List Char) : '/' ∉ lastRawSeg b := by
  intro h
  rw [lastRawSeg, List.mem_reverse] at h
  have := List.mem_takeWhile_imp h
  simp at this

theorem dirWithSlash_eq_nil_of_no_slash {b : List Char} (h : '/' ∉ b) :
    dirWithSlash b = [] := by
  unfold dirWithSlash
  rw [List.dropWhile_eq_nil_iff.mpr, List.reverse_nil]
  intro x hx
  have hxe : x ≠ '/' := fun hxe => h (hxe ▸ List.mem_reverse.mp hx)
  simp [hxe]

theorem head_dropWhile_not {p : Char → Bool} :
    ∀ {l : List Char} {c : Char} {cs : List Char},
      l.dropWhile p = c :: cs → p c = false := by
  intro l
  induction l with
  | nil => intro c cs h; simp [List.dropWhile] at h
  | cons a t ih =>
    intro c cs h
    rw [List.dropWhile_cons] at h
    by_cases ha : p a
    · rw [if_pos ha] at h
      exact ih h
    · rw [if_neg ha] at h
      cases h
      simpa using ha

theorem dirWithSlash_endSlash {b : List Char} (h : '/' ∈ b) :
    (dirWithSlash b).getLast? = some '/' := by
  unfold dirWithSlash
  rw [List.getLast?_reverse]
  cases hd : b.reverse.dropWhile (fun c => decide ¬c = '/') with
  | nil =>
    exfalso
    have := List.dropWhile_eq_nil_iff.mp hd ('/') (List.mem_reverse.mpr h)
    simp at this
  | cons c cs =>
    have := head_dropWhile_not hd
    simp only [List.head?_cons]
    simp only [decide_not, Bool.not_eq_false'] at this
    simp [decide_eq_true_eq] at this
    simp [this]

/-! ### Decomposition of filters and maps at a kept last element -/

theorem filter_concat_last {α : Type} {p : α → Bool} {l : List α} {a : α}
    (h : l.getLast? = some a) (hp : p a = true) :
    l.filter p = (l.dropLast).filter p ++ [a] := by
  have hd : l.dropLast ++ [a] = l := List.dropLast_append_getLast? a h
  conv_lhs => rw [← hd]
  rw [List.filter_append]
  simp [hp]

theorem map_concat_last {α β : Type} {f : α → β} {l : List α} {a : α}
    (h : l.getLast? = some a) :
    l.map f = (l.dropLast).map f ++ [f a] := by
  have hd : l.dropLast ++ [a] = l := List.dropLast_append_getLast? a h
  conv_lhs => rw [← hd]
  rw [List.map_append]
  rfl

/-! ### The normalization loop versus the spec's segment loop -/

theorem foldl_normStep_body (segs : List (List Char)) :
    ∀ (acc : List (List Char)) (ab : Bool),
      ((segs.filter (· ≠ ['.'])).map segToComp).foldl normStep (acc, ab) =
        (segs.foldl specStep acc, ab) := by
  induction segs with
  | nil => intro acc ab; rfl
  | cons s t ih =>
    intro acc ab
    by_cases hdot : s = ['.']
    · subst hdot
      have hf : (['.'] :: t).filter (· ≠ ['.']) = t.filter (· ≠ ['.']) := by
        simp [List.filter_cons]
      rw [hf, ih]
      have hs : specStep acc ['.'] = acc := by simp [specStep]
      rw [List.foldl_cons, hs]
    · have hf : (s :: t).filter (· ≠ ['.']) = s :: t.filter (· ≠ ['.']) := by
        simp [List.filter_cons, hdot]
      rw [hf, List.map_cons, List.foldl_cons]
      by_cases hdd : s = ['.', '.']
      · subst hdd
        have hstep : normStep (acc, ab) (segToComp ['.', '.']) =
            (acc.dropLast, ab) := by
          simp [segToComp, normStep]
        have hs : specStep acc ['.', '.'] = acc.dropLast := by
          simp [specStep]
        rw [hstep, ih, List.foldl_cons, hs]
      · have hstep : normStep (acc, ab) (segToComp s) = (acc ++ [s], ab) := by
          simp [segToComp, hdd, normStep]
        have hs : specStep acc s = acc ++ [s] := by
          simp [specStep, hdot, hdd]
        rw [hstep, ih, List.foldl_cons, hs]

theorem foldl_normStep_cond_root (c : Bool) (rest : List PComp)
    (acc : List (List Char)) (ab : Bool) :
    ((if c then [PComp.rootDir] else []) ++ rest).foldl normStep (acc, ab) =
      rest.foldl normStep (acc, ab || c) := by
  cases c <;> simp [normStep]

theorem foldl_normStep_cond_cur (c : Prop) [Decidable c] (rest : List PComp)
    (st : List (List Char) × Bool) :
    ((if c then [PComp.curDir] else []) ++ rest).foldl normStep st =
      rest.foldl normStep st := by
  by_cases hc : c <;> simp [hc, normStep]

/-- Folding the normalization loop over the components of a path equals the
spec's segment loop over its nonempty raw segments, with the absolute flag
set when the path has a root. -/
theorem foldl_normStep_rustComponents (X : List Char)
    (acc : List (List Char)) (ab : Bool) :
    (rustComponents X).foldl normStep (acc, ab) =
      (((splitSlash X).filter (· ≠ [])).foldl specStep acc,
        ab || startsSlash X) := by
  unfold rustComponents
  rw [List.append_assoc, foldl_normStep_cond_root, foldl_normStep_cond_cur,
    foldl_normStep_body]

/-! ### `Path::parent` on a good base -/

theorem goodBaseL_elim {b : List Char} (h : goodBaseL b = true) :
    ∃ lseg, (splitSlash b).getLast? = some lseg ∧ lseg ≠ [] ∧
      lseg ≠ ['.'] ∧ lseg ≠ ['.', '.'] := by
  unfold goodBaseL at h
  cases hL : (splitSlash b).getLast? with
  | none => rw [hL] at h; simp at h
  | some l =>
    rw [hL] at h
    simp only [decide_eq_true_eq] at h
    exact ⟨l, rfl, h.1, h.2.1, h.2.2⟩

theorem rustComponents_decomp_of_goodBase {b lseg : List Char}
    (hL : (splitSlash b).getLast? = some lseg)
    (h0 : lseg ≠ []) (h1 : lseg ≠ ['.']) (h2 : lseg ≠ ['.', '.']) :
    rustComponents b =
      ((if startsSlash b then [PComp.rootDir] else []) ++
        ((if startsSlash b = false ∧
            ((splitSlash b).filter (· ≠ [])).head? = some ['.']
          then [PComp.curDir] else []) ++
        ((((splitSlash b).dropLast.filter (· ≠ [])).filter
          (· ≠ ['.'])).map segToComp))) ++ [PComp.normal lseg] := by
  have hf1 : (splitSlash b).filter (· ≠ []) =
      ((splitSlash b).dropLast).filter (· ≠ []) ++ [lseg] :=
    filter_concat_last hL (by simp [h0])
  have hf2 : ((((splitSlash b).dropLast).filter (· ≠ []) ++ [lseg]).filter
      (· ≠ ['.'])) =
      (((splitSlash b).dropLast).filter (· ≠ [])).filter (· ≠ ['.']) ++
        [lseg] := by
    rw [List.filter_append]
    simp [h1]
  have hseg : segToComp lseg = PComp.normal lseg := by
    simp [segToComp, h2]
  unfold rustComponents
  simp only [hf1, hf2, List.map_append, List.map_singleton, hseg,
    List.append_assoc]

theorem rustParent_concat_normal {b : List Char} {Z : List PComp}
    {l : List Char} (h : rustComponents b = Z ++ [PComp.normal l]) :
    rustParent b = some Z := by
  unfold rustParent
  simp only [h]
  rw [if_neg, List.dropLast_concat]
  rintro (hc | hc)
  · simp at hc
  · cases Z with
    | nil => simp at hc
    | cons z zs =>
      rw [List.cons_append] at hc
      have := List.cons.inj hc
      simp at this

theorem startsSlash_append_left {d : List Char} (x : List Char)
    (h : d ≠ []) : startsSlash (d ++ x) = startsSlash d := by
  cases d with
  | nil => exact absurd rfl h
  | cons c cs => simp [startsSlash]

theorem startsSlash_eq_false_of_no_slash {b : List Char} (h : '/' ∉ b) :
    startsSlash b = false := by
  cases b with
  | nil => rfl
  | cons c cs =>
    have : c ≠ '/' := fun hc => h (hc ▸ List.mem_cons_self c cs)
    simp [startsSlash, this]

/-- The spec-side join decomposes over the raw segments of the base: the
segments of `dirWithSlash b ++ R` are the base's raw segments without the
final one, followed by the segments of `R`; the joined path is absolute
exactly when the base is (for a relative reference). -/
theorem spec_joined_decomp (b R : List Char) (hrel : startsSlash R = false) :
    splitSlash (dirWithSlash b ++ R) =
        (splitSlash b).dropLast ++ splitSlash R ∧
      startsSlash (dirWithSlash b ++ R) = startsSlash b := by
  by_cases hsl : '/' ∈ b
  · have hend := dirWithSlash_endSlash hsl
    have hdec := dirWithSlash_append_lastRawSeg b
    have hts : splitSlash (lastRawSeg b) = [lastRawSeg b] :=
      splitSlash_of_no_slash (no_slash_lastRawSeg b)
    have hS : splitSlash b =
        (splitSlash (dirWithSlash b)).dropLast ++ [lastRawSeg b] := by
      conv_lhs => rw [← hdec]
      rw [splitSlash_append_of_endSlash _ hend, hts]
    have hdrop : (splitSlash b).dropLast =
        (splitSlash (dirWithSlash b)).dropLast := by
      rw [hS, List.dropLast_concat]
    have hdne : dirWithSlash b ≠ [] := by
      intro hnil
      rw [hnil] at hend
      simp at hend
    refine ⟨?_, ?_⟩
    · rw [splitSlash_append_of_endSlash _ hend, hdrop]
    · rw [startsSlash_append_left R hdne]
      conv_rhs => rw [← hdec]
      rw [startsSlash_append_left _ hdne]
  · have hd0 : dirWithSlash b = [] := dirWithSlash_eq_nil_of_no_slash hsl
    have hsb : splitSlash b = [b] := splitSlash_of_no_slash hsl
    refine ⟨?_, ?_⟩
    · simp [hd0, hsb]
    · rw [hd0, List.nil_append, hrel,
        startsSlash_eq_false_of_no_slash hsl]

/-- On every base href whose final slash-segment is a normal name,
`resolve_path` coincides with the algorithm written from the spec's
words. -/
theorem resolve_path_eq_resolveSpec (b r : String) (h : goodBase b = true) :
    resolve_path b r = resolveSpec b r := by
  obtain ⟨lseg, hL, h0, h1, h2⟩ := goodBaseL_elim h
  have hparent := rustParent_concat_normal
    (rustComponents_decomp_of_goodBase hL h0 h1 h2)
  unfold resolve_path resolveSpec
  simp only [hparent]
  by_cases habs : startsSlash r.data = true
  · simp only [habs, if_true, normLoop, foldl_normStep_rustComponents,
      Bool.false_or]
  · have habs' : startsSlash r.data = false := by
      simpa using habs
    obtain ⟨hj1, hj2⟩ := spec_joined_decomp b.data r.data habs'
    simp only [habs', Bool.false_eq_true, if_false, normLoop]
    rw [List.append_assoc, List.append_assoc, foldl_normStep_cond_root,
      foldl_normStep_cond_cur, List.foldl_append, foldl_normStep_body,
      foldl_normStep_rustComponents, hj1, hj2, List.filter_append,
      List.foldl_append]
    simp [habs']

/-! ### Normalized output: segments of the accumulator -/

theorem normLoop_acc_mem {P : List Char → Prop} :
    ∀ (comps : List PComp) (acc : List (List Char)) (ab : Bool),
      (∀ p ∈ acc, P p) →
      (∀ s, PComp.normal s ∈ comps → P s) →
      ∀ p ∈ (comps.foldl normStep (acc, ab)).1, P p := by
  intro comps
  induction comps with
  | nil => intro acc ab hacc _ p hp; exact hacc p hp
  | cons c t ih =>
    intro acc ab hacc hcomps p hp
    rw [List.foldl_cons] at hp
    cases c with
    | rootDir =>
      exact ih acc true hacc
        (fun s hs => hcomps s (List.mem_cons_of_mem _ hs)) p hp
    | curDir =>
      exact ih acc ab hacc
        (fun s hs => hcomps s (List.mem_cons_of_mem _ hs)) p hp
    | parentDir =>
      exact ih acc.dropLast ab
        (fun q hq => hacc q (List.dropLast_subset _ hq))
        (fun s hs => hcomps s (List.mem_cons_of_mem _ hs)) p hp
    | normal s =>
      refine ih (acc ++ [s]) ab ?_
        (fun s' hs' => hcomps s' (List.mem_cons_of_mem _ hs')) p hp
      intro q hq
      rcases List.mem_append.mp hq with h | h
      · exact hacc q h
      · rw [List.mem_singleton.mp h]
        exact hcomps s (List.mem_cons_self _ _)

theorem normal_mem_rustComponents {X s : List Char}
    (h : PComp.normal s ∈ rustComponents X) :
    s ∈ splitSlash X ∧ s ≠ [] ∧ s ≠ ['.'] ∧ s ≠ ['.', '.'] := by
  unfold rustComponents at h
  rcases List.mem_append.mp h with h' | h'
  · rcases List.mem_append.mp h' with h'' | h''
    · by_cases hc : startsSlash X = true <;> simp [hc] at h''
    · by_cases hc : startsSlash X = false ∧
          (((splitSlash X).filter (· ≠ [])).head? = some ['.']) <;>
        simp [hc] at h''
  · obtain ⟨seg, hseg, heq⟩ := List.mem_map.mp h'
    have hne2 : seg ≠ ['.', '.'] := by
      intro hdd
      rw [hdd] at heq
      simp [segToComp] at heq
    have hs : s = seg := by
      unfold segToComp at heq
      rw [if_neg hne2] at heq
      exact (PComp.normal.inj heq).symm
    subst hs
    have h1 := List.mem_filter.mp hseg
    have h2 := List.mem_filter.mp h1.1
    refine ⟨h2.1, by simpa using h2.2, by simpa using h1.2, hne2⟩

theorem rustParent_eq_dropLast {B : List Char} {P : List PComp}
    (h : rustParent B = some P) : P = (rustComponents B).dropLast := by
  unfold rustParent at h
  by_cases hc : rustComponents B = [] ∨ rustComponents B = [PComp.rootDir]
  · rw [if_pos hc] at h
    exact absurd h (by simp)
  · rw [if_neg hc] at h
    exact (Option.some.inj h).symm

/-- Characters of `renderPath` come from its pieces or are `/`. -/
theorem mem_renderPath {ab : Bool} {segs : List (List Char)} {c : Char}
    (h : c ∈ renderPath ab segs) : c = '/' ∨ ∃ p ∈ segs, c ∈ p := by
  unfold renderPath at h
  rcases List.mem_append.mp h with h' | h'
  · cases ab <;> simp at h'
    exact Or.inl h'
  · exact mem_joinSlash segs c h'

/-- The pieces of the split of a rendered path are empty or pieces of the
accumulator. -/
theorem splitSlash_renderPath {ab : Bool} {segs : List (List Char)}
    (hfree : ∀ p ∈ segs, '/' ∉ p) :
    ∀ q ∈ splitSlash (renderPath ab segs), q = [] ∨ q ∈ segs := by
  intro q hq
  have hjoin : ∀ q' ∈ splitSlash (joinSlash segs), q' = [] ∨ q' ∈ segs := by
    intro q' hq'
    by_cases hnil : segs = []
    · subst hnil
      simp [joinSlash, splitSlash] at hq'
      exact Or.inl hq'
    · rw [joinSlash_roundtrip segs hnil hfree] at hq'
      exact Or.inr hq'
  cases ab with
  | false => exact hjoin q (by simpa [renderPath] using hq)
  | true =>
    have : renderPath true segs = '/' :: joinSlash segs := rfl
    rw [this, splitSlash_cons_slash] at hq
    rcases List.mem_cons.mp hq with h' | h'
    · exact Or.inl h'
    · exact hjoin q h'

theorem map_toSlashChar_id {X : List Char} (h : '\\' ∉ X) :
    X.map toSlashChar = X := by
  induction X with
  | nil => rfl
  | cons c cs ih =>
    have hc : c ≠ '\\' := fun hc => h (hc ▸ List.mem_cons_self c cs)
    have hcs : '\\' ∉ cs := fun hm => h (List.mem_cons_of_mem c hm)
    simp [toSlashChar, hc, ih hcs]

theorem toSlashChar_ne_backslash (c : Char) : toSlashChar c ≠ '\\' := by
  unfold toSlashChar
  by_cases hc : c = '\\' <;> simp [hc]

/-- When the base has a directory portion (`Path::parent` is `Some`) and
neither input contains a backslash, the resolved path has no `.` and no
unresolved `..` segments; the output never contains a backslash. -/
theorem resolve_path_normalized (b r : String)
    (hpar : (rustParent b.data).isSome = true)
    (hb : '\\' ∉ b.data) (hr : '\\' ∉ r.data) :
    (∀ seg ∈ pathSegments (resolve_path b r), seg ≠ "." ∧ seg ≠ "..") ∧
      '\\' ∉ (resolve_path b r).data := by
  obtain ⟨P, hP⟩ := Option.isSome_iff_exists.mp hpar
  have hPd := rustParent_eq_dropLast hP
  have hnormals : ∀ s, (PComp.normal s ∈
        (if startsSlash r.data then rustComponents r.data
          else P ++ rustComponents r.data)) →
      s ≠ ['.'] ∧ s ≠ ['.', '.'] ∧ '/' ∉ s ∧ '\\' ∉ s := by
    intro s hs
    have hfrom : PComp.normal s ∈ rustComponents b.data ∨
        PComp.normal s ∈ rustComponents r.data := by
      by_cases hst : startsSlash r.data = true
      · rw [if_pos hst] at hs
        exact Or.inr hs
      · rw [if_neg hst] at hs
        rcases List.mem_append.mp hs with h' | h'
        · rw [hPd] at h'
          exact Or.inl (List.dropLast_subset _ h')
        · exact Or.inr h'
    rcases hfrom with h' | h'
    · obtain ⟨hmem, _, hdot, hdd⟩ := normal_mem_rustComponents h'
      exact ⟨hdot, hdd, mem_splitSlash_no_slash _ s hmem,
        fun hbs => hb (mem_of_mem_splitSlash _ s hmem _ hbs)⟩
    · obtain ⟨hmem, _, hdot, hdd⟩ := normal_mem_rustComponents h'
      exact ⟨hdot, hdd, mem_splitSlash_no_slash _ s hmem,
        fun hbs => hr (mem_of_mem_splitSlash _ s hmem _ hbs)⟩
  have hacc := normLoop_acc_mem
    (if startsSlash r.data then rustComponents r.data
      else P ++ rustComponents r.data) [] false (by simp) hnormals
  have hout : resolve_path b r = String.mk
      (((fun st => renderPath st.2 st.1)
        (normLoop (if startsSlash r.data then rustComponents r.data
          else P ++ rustComponents r.data))).map toSlashChar) := by
    unfold resolve_path
    rw [hP]
  set st := normLoop (if startsSlash r.data then rustComponents r.data
    else P ++ rustComponents r.data) with hst
  have haccQ : ∀ p ∈ st.1,
      p ≠ ['.'] ∧ p ≠ ['.', '.'] ∧ '/' ∉ p ∧ '\\' ∉ p := by
    intro p hp
    exact hacc p (by simpa [normLoop, hst] using hp)
  have hXfree : '\\' ∉ renderPath st.2 st.1 := by
    intro hmem
    rcases mem_renderPath hmem with h' | ⟨p, hp, hcp⟩
    · exact absurd h'.symm (by decide)
    · exact (haccQ p hp).2.2.2 hcp
  have hid : (renderPath st.2 st.1).map toSlashChar = renderPath st.2 st.1 :=
    map_toSlashChar_id hXfree
  have hdata : (resolve_path b r).data = renderPath st.2 st.1 := by
    rw [hout]
    exact hid
  constructor
  · intro seg hseg
    unfold pathSegments at hseg
    rw [hdata] at hseg
    obtain ⟨q, hq, hqeq⟩ := List.mem_map.mp hseg
    have hq' := splitSlash_renderPath
      (fun p hp => (haccQ p hp).2.2.1) q hq
    subst hqeq
    rcases hq' with h' | h'
    · subst h'
      exact ⟨by decide, by decide⟩
    · obtain ⟨hdot, hdd, _, _⟩ := haccQ q h'
      constructor
      · intro hcon
        exact hdot (congrArg String.data hcon)
      · intro hcon
        exact hdd (congrArg String.data hcon)
  · rw [hdata]
    exact hXfree

/-- Character lists produced by the final replacement map are
backslash-free, on every input. -/
theorem no_backslash_map_toSlashChar (X : List Char) :
    '\\' ∉ X.map toSlashChar := by
  intro hmem
  obtain ⟨c, _, hc⟩ := List.mem_map.mp hmem
  exact toSlashChar_ne_backslash c hc

/-- Unconditionally, the output of `resolve_path` contains no backslash:
the `.replace('\\', "/")` is the last step of both branches. -/
theorem resolve_path_no_backslash (b r : String) :
    '\\' ∉ (resolve_path b r).data := by
  unfold resolve_path
  exact no_backslash_map_toSlashChar _

/-- When the base has no directory portion (`Path::parent` is `None`),
`resolve_path` returns the reference with only the backslash conversion
applied. -/
theorem resolve_path_of_parent_none {b r : String}
    (h : rustParent b.data = none) :
    resolve_path b r = String.mk (r.data.map toSlashChar) := by
  unfold resolve_path
  rw [h]

/-! ## Claim theorems for the Path Resolver -/

/-- C3 counterexample: when `base_href` is empty, `Path::parent` is `None`
and `resolve_path` returns the reference verbatim (after backslash
conversion), so the output can contain a `.` segment — refuting the claim
that the result never contains `.` segments for every base and
reference. -/
theorem C3_counterexample :
    resolve_path "" "./x.png" = "./x.png" ∧
      "." ∈ pathSegments (resolve_path "" "./x.png") := by
  exact ⟨by decide, by decide⟩

/-- C3 (amended): on every input, the output of `resolve_path` contains no
backslash — every backslash present in the input is converted to `/` by
the final character replacement; whenever the base href has a directory
portion (`Path::parent` is `Some` — in particular the base is neither
empty nor a pure root) and neither input contains a backslash, the result
contains no `.` segments and no unresolved `..` segments; and when the
base has no directory portion, `resolve_path` returns the reference with
only the backslash conversion applied, unnormalized. -/
theorem C3_resolve_path_normalized_amended (b r : String) :
    '\\' ∉ (resolve_path b r).data ∧
      ((rustParent b.data).isSome = true → '\\' ∉ b.data → '\\' ∉ r.data →
        ∀ seg ∈ pathSegments (resolve_path b r), seg ≠ "." ∧ seg ≠ "..") ∧
      (rustParent b.data = none →
        resolve_path b r = String.mk (r.data.map toSlashChar)) :=
  ⟨resolve_path_no_backslash b r,
    fun hpar hb hr => (resolve_path_normalized b r hpar hb hr).1,
    fun h => resolve_path_of_parent_none h⟩

/-- C3 witness: the amended claim at concrete inputs — a backslash-bearing
reference against an empty base is returned with every backslash converted
to `/`, and a good base with a dotted reference yields a normalized
path. -/
theorem C3_witness :
    '\\' ∉ (resolve_path "" "win\\img\\x.png").data ∧
      resolve_path "" "win\\img\\x.png" =
        String.mk ("win\\img\\x.png".data.map toSlashChar) ∧
      resolve_path "" "win\\img\\x.png" = "win/img/x.png" ∧
      ((rustParent "chapter1/page.xhtml".data).isSome = true ∧
        ∀ seg ∈ pathSegments
            (resolve_path "chapter1/page.xhtml" "../images/cover.png"),
          seg ≠ "." ∧ seg ≠ "..") :=
  ⟨(C3_resolve_path_normalized_amended "" "win\\img\\x.png").1,
    (C3_resolve_path_normalized_amended "" "win\\img\\x.png").2.2
      (by decide),
    by decide,
    ⟨by decide,
      (C3_resolve_path_normalized_amended "chapter1/page.xhtml"
        "../images/cover.png").2.1 (by decide) (by decide) (by decide)⟩⟩

/-- C4: `resolve_path` never fails or underflows on excess `..` segments —
a `ParentDir` component hitting an empty accumulator is a no-op
(`Vec::pop` on empty), and the documented example resolves to "x.png". -/
theorem C4_parentdir_clamp :
    (∀ ab : Bool, normStep ([], ab) PComp.parentDir = ([], ab)) ∧
      resolve_path "a/b/c.xhtml" "../../../../x.png" = "x.png" := by
  refine ⟨fun ab => rfl, by decide⟩

/-- C5 counterexample: with an empty base href, `resolve_path` returns the
reference verbatim, whereas the specified algorithm (directory portion,
join, segment loop) would normalize it — so `resolve_path` does not
implement the specified algorithm on every input. -/
theorem C5_counterexample :
    resolve_path "" "../a/b.png" = "../a/b.png" ∧
      resolveSpec "" "../a/b.png" = "a/b.png" ∧
      resolve_path "" "../a/b.png" ≠ resolveSpec "" "../a/b.png" := by
  exact ⟨by decide, by decide, by decide⟩

/-- C5 (amended): `resolve_path` implements the spec's algorithm on every
base href whose final slash-segment is a normal name (nonempty, not `.`,
not `..` — in particular it fails to do so for an empty base); both cited
examples hold. -/
theorem C5_resolve_path_refines_spec (b r : String)
    (h : goodBase b = true) :
    resolve_path b r = resolveSpec b r ∧
      resolve_path "chapter1/page.xhtml" "../images/cover.png" =
        "images/cover.png" ∧
      resolve_path "page.xhtml" "./img/a.png" = "img/a.png" :=
  ⟨resolve_path_eq_resolveSpec b r h, by decide, by decide⟩

/-- C5 witness: the refinement holds at a concrete good base. -/
theorem C5_witness :
    goodBase "chapter1/page.xhtml" = true ∧
      (resolve_path "chapter1/page.xhtml" "../images/cover.png" =
          resolveSpec "chapter1/page.xhtml" "../images/cover.png" ∧
        resolve_path "chapter1/page.xhtml" "../images/cover.png" =
          "images/cover.png" ∧
        resolve_path "page.xhtml" "./img/a.png" = "img/a.png") :=
  ⟨by decide, C5_resolve_path_refines_spec "chapter1/page.xhtml"
    "../images/cover.png" (by decide)⟩

/-! ### Concatenation lemmas for the assembled output -/

theorem foldl_str_append (t : List String) :
    ∀ a b : String, t.foldl (fun r s => r ++ s) (a ++ b) =
      a ++ t.foldl (fun r s => r ++ s) b := by
  induction t with
  | nil => intro a b; rfl
  | cons s t ih =>
    intro a b
    rw [List.foldl_cons, List.foldl_cons, String.append_assoc, ih]

theorem join_cons (s : String) (t : List String) :
    String.join (s :: t) = s ++ String.join t := by
  show t.foldl (fun r s => r ++ s) ("" ++ s) = _
  rw [show ("" ++ s : String) = s ++ "" by
    rw [String.append_empty]; rfl, foldl_str_append]
  rfl

theorem foldl_append_eq_join (frag : SpineEntry → String)
    (entries : List SpineEntry) :
    ∀ acc : String,
      entries.foldl (fun combined e => combined ++ frag e) acc =
        acc ++ String.join (entries.map frag) := by
  induction entries with
  | nil =>
    intro acc
    rw [List.foldl_nil, List.map_nil,
      show String.join [] = "" from rfl, String.append_empty]
  | cons e t ih =>
    intro acc
    rw [List.foldl_cons, ih, List.map_cons, join_cons, String.append_assoc]

/-- Entries mapped to the empty string can be dropped from a join. -/
theorem join_map_filter {α : Type} (f : α → String) (p : α → Bool) :
    ∀ (l : List α), (∀ e ∈ l, p e = false → f e = "") →
      String.join (l.map f) = String.join ((l.filter p).map f) := by
  intro l
  induction l with
  | nil => intro _; rfl
  | cons e t ih =>
    intro h
    have ht := ih (fun e' he' => h e' (List.mem_cons_of_mem e he'))
    rw [List.map_cons, join_cons]
    by_cases hp : p e = true
    · rw [List.filter_cons_of_pos hp, List.map_cons, join_cons, ht]
    · have hp' : p e = false := by simpa using hp
      rw [h e (List.mem_cons_self e t) hp', List.filter_cons_of_neg
        (by simp [hp']), ht]
      rfl

/-- The output of `get_epub_content` is the separator-free concatenation of the per-entry
fragments, in spine order. -/
theorem get_epub_content_eq_join (epub : Epub) :
    get_epub_content epub =
      String.join (epub.spine.map (fragmentOf epub)) := by
  unfold get_epub_content
  rw [foldl_append_eq_join]
  rfl

theorem fragmentOf_eq_empty_of_not_contributes (epub : Epub)
    (e : SpineEntry) (h : contributes epub e = false) :
    fragmentOf epub e = "" := by
  unfold contributes at h
  unfold fragmentOf
  cases hid : by_id epub.manifest e.idref with
  | none => rfl
  | some res =>
    rw [hid] at h
    have h' : (res.mediaType == "application/xhtml+xml" &&
        (match res.content with
         | some doc => doc.body?.isSome
         | none => false)) = false := h
    show (if (res.mediaType == "application/xhtml+xml") = true then
        match res.content with
        | some doc =>
          match doc.body? with
          | some chunks => bodyFragment epub res chunks
          | none => ""
        | none => ""
      else "") = ""
    by_cases hmt : (res.mediaType == "application/xhtml+xml") = true
    · rw [if_pos hmt]
      rw [hmt, Bool.true_and] at h'
      cases hct : res.content with
      | none => rfl
      | some doc =>
        rw [hct] at h'
        have h'' : doc.body?.isSome = false := h'
        show (match doc.body? with
          | some chunks => bodyFragment epub res chunks
          | none => "") = ""
        cases hb : doc.body? with
        | none => rfl
        | some chunks =>
          rw [hb] at h''
          simp at h''
    · rw [if_neg hmt]

theorem fragmentOf_eq_empty_of_not_markup (epub : Epub)
    (e : SpineEntry) (h : isMarkup epub e = false) :
    fragmentOf epub e = "" := by
  unfold isMarkup at h
  unfold fragmentOf
  cases hid : by_id epub.manifest e.idref with
  | none => rfl
  | some res =>
    rw [hid] at h
    have h' : (res.mediaType == "application/xhtml+xml") = false := h
    show (if (res.mediaType == "application/xhtml+xml") = true then
        match res.content with
        | some doc =>
          match doc.body? with
          | some chunks => bodyFragment epub res chunks
          | none => ""
        | none => ""
      else "") = ""
    rw [if_neg (by simp [h'])]

theorem fragmentOf_of_contributing {epub : Epub} {e : SpineEntry}
    {res : Resource} {doc : XhtmlDoc} {chunks : List Chunk}
    (hid : by_id epub.manifest e.idref = some res)
    (hmt : (res.mediaType == "application/xhtml+xml") = true)
    (hct : res.content = some doc) (hb : doc.body? = some chunks) :
    fragmentOf epub e = bodyFragment epub res chunks := by
  unfold fragmentOf
  rw [hid]
  show (if (res.mediaType == "application/xhtml+xml") = true then
      match res.content with
      | some doc =>
        match doc.body? with
        | some chunks => bodyFragment epub res chunks
        | none => ""
      | none => ""
    else "") = _
  rw [if_pos hmt, hct]
  show (match doc.body? with
    | some chunks => bodyFragment epub res chunks
    | none => "") = _
  rw [hb]

theorem markupReadable_spec {epub : Epub} (h : markupReadable epub = true)
    {e : SpineEntry} (he : e ∈ epub.spine) {res : Resource}
    (hid : by_id epub.manifest e.idref = some res)
    (hmt : (res.mediaType == "application/xhtml+xml") = true) :
    ∃ doc chunks, res.content = some doc ∧ doc.body? = some chunks := by
  unfold markupReadable at h
  have hall := List.all_eq_true.mp h e he
  rw [hid] at hall
  have h1 : (if (res.mediaType == "application/xhtml+xml") = true then
      (match res.content with
       | some doc => doc.body?.isSome
       | none => false) else true) = true := hall
  rw [if_pos hmt] at h1
  cases hct : res.content with
  | none =>
    rw [hct] at h1
    have h2 : false = true := h1
    simp at h2
  | some doc =>
    rw [hct] at h1
    have h2 : doc.body?.isSome = true := h1
    cases hb : doc.body? with
    | none => rw [hb] at h2; simp at h2
    | some chunks => exact ⟨doc, chunks, rfl, hb⟩

theorem isMarkup_elim {epub : Epub} {e : SpineEntry}
    (h : isMarkup epub e = true) :
    ∃ res, by_id epub.manifest e.idref = some res ∧
      (res.mediaType == "application/xhtml+xml") = true := by
  unfold isMarkup at h
  cases hid : by_id epub.manifest e.idref with
  | none =>
    rw [hid] at h
    have h2 : false = true := h
    simp at h2
  | some res =>
    rw [hid] at h
    exact ⟨res, rfl, h⟩

/-- C1: for a container in which every markup spine document is readable
and parses to a document with a body region, `get_epub_content` is the
concatenation, in spine order and with no inserted separators, of exactly
one body-region inner-content fragment per markup spine document. -/
theorem C1_content_concatenates_markup_fragments (epub : Epub)
    (h : markupReadable epub = true) :
    get_epub_content epub =
        String.join ((markupEntries epub).map (fragmentOf epub)) ∧
      ((markupEntries epub).map (fragmentOf epub)).length =
        (markupEntries epub).length ∧
      ∀ e ∈ markupEntries epub, ∃ res chunks,
        by_id epub.manifest e.idref = some res ∧
        res.content.bind XhtmlDoc.body? = some chunks ∧
        fragmentOf epub e = bodyFragment epub res chunks := by
  refine ⟨?_, List.length_map _ _, ?_⟩
  · rw [get_epub_content_eq_join]
    exact join_map_filter (fragmentOf epub) (isMarkup epub) epub.spine
      (fun e _ he => fragmentOf_eq_empty_of_not_markup epub e he)
  · intro e he
    obtain ⟨hmem, hmk⟩ := List.mem_filter.mp he
    obtain ⟨res, hid, hmt⟩ := isMarkup_elim hmk
    obtain ⟨doc, chunks, hct, hb⟩ := markupReadable_spec h hmem hid hmt
    refine ⟨res, chunks, hid, ?_, fragmentOf_of_contributing hid hmt hct hb⟩
    rw [hct]
    exact hb

theorem C1_witness :
    markupReadable epubC1 = true ∧
      (get_epub_content epubC1 =
          String.join ((markupEntries epubC1).map (fragmentOf epubC1)) ∧
        ((markupEntries epubC1).map (fragmentOf epubC1)).length =
          (markupEntries epubC1).length ∧
        ∀ e ∈ markupEntries epubC1, ∃ res chunks,
          by_id epubC1.manifest e.idref = some res ∧
          res.content.bind XhtmlDoc.body? = some chunks ∧
          fragmentOf epubC1 e = bodyFragment epubC1 res chunks) :=
  ⟨by decide, C1_content_concatenates_markup_fragments epubC1 (by decide)⟩

/-- C6: an image reference whose resolved path matches no manifest
resource, or whose matched resource's bytes cannot be read, leaves the
original markup element unmodified (in both rewrite passes), and assembly
of the whole document still processes every spine entry — per-resource
resolution failures never abort `get_epub_content`. -/
theorem C6_resolution_failure_fail_open (epub : Epub)
    (href pre src suf pre2 suf2 : String)
    (hnd : strStartsWith src "data:" = false)
    (hnh : strStartsWith src "http" = false)
    (hfail : by_href epub.manifest (resolve_path href src) = none ∨
      ∀ res, by_href epub.manifest (resolve_path href src) = some res →
        res.bytes = none) :
    processImg epub href (Chunk.imgTag pre src suf) =
        Chunk.imgTag pre src suf ∧
      processImage epub href (Chunk.imageTag pre2 src suf2) =
        Chunk.imageTag pre2 src suf2 ∧
      get_epub_content epub =
        String.join (epub.spine.map (fragmentOf epub)) := by
  refine ⟨?_, ?_, get_epub_content_eq_join epub⟩
  · unfold processImg
    show (if (strStartsWith src "data:" || strStartsWith src "http") = true
        then Chunk.imgTag pre src suf
      else
        match by_href epub.manifest (resolve_path href src) with
        | some image_resource =>
          match image_resource.bytes with
          | some image_bytes =>
            Chunk.imgTag pre (dataUrl image_resource.mediaType image_bytes)
              suf
          | none => Chunk.imgTag pre src suf
        | none => Chunk.imgTag pre src suf) = Chunk.imgTag pre src suf
    rw [if_neg (by simp [hnd, hnh])]
    cases hbh : by_href epub.manifest (resolve_path href src) with
    | none => rfl
    | some res =>
      rcases hfail with h | h
      · rw [hbh] at h; simp at h
      · have hb := h res hbh
        show (match res.bytes with
          | some image_bytes =>
            Chunk.imgTag pre (dataUrl res.mediaType image_bytes) suf
          | none => Chunk.imgTag pre src suf) = Chunk.imgTag pre src suf
        rw [hb]
  · unfold processImage
    show (if (strStartsWith src "data:" || strStartsWith src "http") = true
        then Chunk.imageTag pre2 src suf2
      else
        match by_href epub.manifest (resolve_path href src) with
        | some image_resource =>
          match image_resource.bytes with
          | some image_bytes =>
            Chunk.imageTag pre2 (dataUrl image_resource.mediaType
              image_bytes) suf2
          | none => Chunk.imageTag pre2 src suf2
        | none => Chunk.imageTag pre2 src suf2) = Chunk.imageTag pre2 src suf2
    rw [if_neg (by simp [hnd, hnh])]
    cases hbh : by_href epub.manifest (resolve_path href src) with
    | none => rfl
    | some res =>
      rcases hfail with h | h
      · rw [hbh] at h; simp at h
      · have hb := h res hbh
        show (match res.bytes with
          | some image_bytes =>
            Chunk.imageTag pre2 (dataUrl res.mediaType image_bytes) suf2
          | none => Chunk.imageTag pre2 src suf2) =
          Chunk.imageTag pre2 src suf2
        rw [hb]

theorem C6_witness :
    (strStartsWith "missing.png" "data:" = false ∧
        strStartsWith "missing.png" "http" = false ∧
        by_href epubC6.manifest
          (resolve_path "ch1.xhtml" "missing.png") = none) ∧
      (processImg epubC6 "ch1.xhtml"
          (Chunk.imgTag "<img src=\x22" "missing.png" "\x22/>") =
          Chunk.imgTag "<img src=\x22" "missing.png" "\x22/>" ∧
        processImage epubC6 "ch1.xhtml"
          (Chunk.imageTag "<image href=\x22" "missing.png" "\x22/>") =
          Chunk.imageTag "<image href=\x22" "missing.png" "\x22/>" ∧
        get_epub_content epubC6 =
          String.join (epubC6.spine.map (fragmentOf epubC6))) :=
  ⟨⟨by decide, by decide, by decide⟩,
    C6_resolution_failure_fail_open epubC6 "ch1.xhtml" "<img src=\x22"
      "missing.png" "\x22/>" "<image href=\x22" "\x22/>" (by decide)
      (by decide) (Or.inl (by decide))⟩

/-- C10: a spine entry contributes to the output exactly through the four
conditions (idref resolves, media type is exactly `application/xhtml+xml`,
text readable, body present); an entry failing any of them contributes
nothing and assembly never errors — the output is the join over precisely
the passing entries. -/
theorem C10_spine_entry_contribution (epub : Epub) :
    get_epub_content epub =
        String.join ((epub.spine.filter (contributes epub)).map
          (fragmentOf epub)) ∧
      (∀ e ∈ epub.spine, contributes epub e = false →
        fragmentOf epub e = "") ∧
      (∀ e res, by_id epub.manifest e.idref = some res →
        res.mediaType ≠ "application/xhtml+xml" →
        fragmentOf epub e = "") := by
  refine ⟨?_, ?_, ?_⟩
  · rw [get_epub_content_eq_join]
    exact join_map_filter (fragmentOf epub) (contributes epub) epub.spine
      (fun e _ he => fragmentOf_eq_empty_of_not_contributes epub e he)
  · intro e _ he
    exact fragmentOf_eq_empty_of_not_contributes epub e he
  · intro e res hid hne
    apply fragmentOf_eq_empty_of_not_markup
    unfold isMarkup
    rw [hid]
    show (res.mediaType == "application/xhtml+xml") = false
    simpa using hne

theorem C10_witness :
    get_epub_content epubC10 =
        String.join ((epubC10.spine.filter (contributes epubC10)).map
          (fragmentOf epubC10)) ∧
      fragmentOf epubC10 ⟨"b"⟩ = "" ∧
      fragmentOf epubC10 ⟨"c"⟩ = "" ∧
      fragmentOf epubC10 ⟨"missing"⟩ = "" ∧
      get_epub_content epubC10 = "A" :=
  ⟨(C10_spine_entry_contribution epubC10).1,
    (C10_spine_entry_contribution epubC10).2.2 ⟨"b"⟩
      { id := "b", href := "b.html", mediaType := "text/html",
        content := some ⟨some [Chunk.text "B"]⟩, bytes := none }
      (by decide) (by decide),
    (C10_spine_entry_contribution epubC10).2.1 ⟨"c"⟩ (by decide) (by decide),
    (C10_spine_entry_contribution epubC10).2.1 ⟨"missing"⟩ (by decide)
      (by decide),
    by decide⟩

/-! ### Support lemmas for the Checksum Service -/

theorem roundStep_length (st : List Nat) (kw : Nat × Nat) :
    (roundStep st kw).length = st.length := by
  unfold roundStep
  split <;> simp

theorem foldl_roundStep_length (l : List (Nat × Nat)) :
    ∀ st : List Nat, (l.foldl roundStep st).length = st.length := by
  induction l with
  | nil => intro st; rfl
  | cons kw t ih =>
    intro st
    rw [List.foldl_cons, ih, roundStep_length]

theorem compressBlock_length (h : List Nat) (block : List Nat) :
    (compressBlock h block).length = h.length := by
  unfold compressBlock
  rw [List.length_map, List.length_zip, foldl_roundStep_length]
  exact Nat.min_self _

theorem sha256Words_length (msg : List Nat) :
    (sha256Words msg).length = 8 := by
  unfold sha256Words
  have hfold : ∀ (bs : List (List Nat)) (h : List Nat),
      (bs.foldl compressBlock h).length = h.length := by
    intro bs
    induction bs with
    | nil => intro h; rfl
    | cons b t ih =>
      intro h
      rw [List.foldl_cons, ih, compressBlock_length]
  rw [hfold]
  rfl

theorem sha256_length (msg : List Nat) : (sha256 msg).length = 32 := by
  unfold sha256
  have hws : ∀ ws : List Nat,
      ((ws.map wordBEBytes).flatten).length = 4 * ws.length := by
    intro ws
    induction ws with
    | nil => rfl
    | cons w t ih =>
      rw [List.map_cons, List.flatten_cons, List.length_append, ih,
        List.length_cons]
      show 4 + 4 * t.length = 4 * (t.length + 1)
      omega
  rw [hws, sha256Words_length]

theorem hexDigit_mem {n : Nat} (h : n < 16) : hexDigit n ∈ hexAlphabet := by
  interval_cases n <;> decide

theorem byteToHex_chars (b : Nat) :
    ∀ c ∈ (byteToHex b).data, c ∈ hexAlphabet := by
  intro c hc
  have hc' : c ∈ [hexDigit (b / 16 % 16), hexDigit (b % 16)] := hc
  rcases List.mem_cons.mp hc' with h | h
  · exact h ▸ hexDigit_mem (Nat.mod_lt _ (by decide))
  · rw [List.mem_singleton.mp h]
    exact hexDigit_mem (Nat.mod_lt _ (by decide))

theorem join_data (l : List String) :
    (String.join l).data = (l.map String.data).flatten := by
  induction l with
  | nil => rfl
  | cons s t ih =>
    rw [join_cons, List.map_cons, List.flatten_cons, ← ih]
    rfl

theorem hexOfBytes_chars (bs : List Nat) :
    ∀ c ∈ (hexOfBytes bs).data, c ∈ hexAlphabet := by
  intro c hc
  unfold hexOfBytes at hc
  rw [join_data, List.map_map] at hc
  obtain ⟨l, hl, hcl⟩ := List.mem_flatten.mp hc
  obtain ⟨b, _, hbl⟩ := List.mem_map.mp hl
  have hbl' : (byteToHex b).data = l := hbl
  rw [← hbl'] at hcl
  exact byteToHex_chars b c hcl

/-- Sanity: the implemented digest matches FIPS 180-4 test vectors. -/
theorem sha256_empty_vector :
    hexOfBytes (sha256 []) =
      "e3b0c44298fc1c149afbf4c8996fb92427ae41e4649b934ca495991b7852b855" := by
  decide

theorem sha256_abc_vector :
    hexOfBytes (sha256 [97, 98, 99]) =
      "ba7816bf8f01cfea414140de5dae2223b00361a396177a9cb410ff61f20015ad" := by
  decide

theorem parse_epub_meta_ok {fs : String → Option (List Nat)}
    {openEpub : String → Except String Epub} {path : String}
    {bs : List Nat} {epub : Epub}
    (hfs : fs path = some bs) (hopen : openEpub path = Except.ok epub) :
    parse_epub_meta fs openEpub path =
      Except.ok (metaOf epub path (hexOfBytes (sha256 bs))) := by
  have hck : compute_checksum fs path =
      Except.ok (hexOfBytes (sha256 bs)) := by
    unfold compute_checksum
    rw [hfs]
  simp only [parse_epub_meta, hck, hopen]
  rfl

theorem C2_counterexample :
    get_cover_image_streamed (some { file_path := some "b.epub" })
        (fun _ => Except.ok epubC2) =
      Except.error "failed to read cover image bytes" ∧
    epubC2.coverImage ≠ none := by
  exact ⟨rfl, by decide⟩

/-- C2 (amended): for a found book with a file path whose container opens,
cover retrieval returns an empty byte sequence (a non-error) when no
cover-image resource is declared; when a declared cover's bytes cannot be
read, the read failure is propagated as an error. -/
theorem C2_cover_policy (book : Book) (fp : String)
    (openEpub : String → Except String Epub) (epub : Epub)
    (hfp : book.file_path = some fp)
    (hopen : openEpub fp = Except.ok epub) :
    (epub.coverImage = none →
        get_cover_image_streamed (some book) openEpub = Except.ok []) ∧
      ∀ res, epub.coverImage = some res → res.bytes = none →
        get_cover_image_streamed (some book) openEpub =
          Except.error "failed to read cover image bytes" := by
  constructor
  · intro hcov
    simp only [get_cover_image_streamed, hfp, hopen, hcov]
  · intro res hcov hbytes
    simp only [get_cover_image_streamed, hfp, hopen, hcov, hbytes]

theorem C2_witness :
    (Book.file_path { file_path := some "b.epub" } = some "b.epub" ∧
        (fun _ : String => (Except.ok epubNoCover : Except String Epub))
          "b.epub" = Except.ok epubNoCover ∧
        epubNoCover.coverImage = none) ∧
      get_cover_image_streamed (some { file_path := some "b.epub" })
        (fun _ => Except.ok epubNoCover) = Except.ok [] :=
  ⟨⟨rfl, rfl, rfl⟩,
    (C2_cover_policy { file_path := some "b.epub" } "b.epub"
      (fun _ => Except.ok epubNoCover) epubNoCover rfl rfl).1 rfl⟩

/-- C7: `parse_epub_meta` applies the documented defaults — missing title,
creators or publishers become "Unknown Title", `["Unknown Author"]`,
`["Unknown Publisher"]` respectively, and the author and publisher lists
of the returned record are never empty. -/
theorem C7_parse_epub_meta_defaults (fs : String → Option (List Nat))
    (openEpub : String → Except String Epub) (path : String)
    (bs : List Nat) (epub : Epub)
    (hfs : fs path = some bs) (hopen : openEpub path = Except.ok epub) :
    ∃ meta, parse_epub_meta fs openEpub path = Except.ok meta ∧
      (epub.metadata.titles = [] → meta.title = "Unknown Title") ∧
      (epub.metadata.creators = [] → meta.authors = ["Unknown Author"]) ∧
      (epub.metadata.publishers = [] →
        meta.publishers = ["Unknown Publisher"]) ∧
      meta.authors ≠ [] ∧ meta.publishers ≠ [] := by
  refine ⟨metaOf epub path (hexOfBytes (sha256 bs)),
    parse_epub_meta_ok hfs hopen, ?_, ?_, ?_, ?_, ?_⟩
  · intro h
    simp [metaOf, h]
  · intro h
    simp [metaOf, h]
  · intro h
    simp [metaOf, h]
  · by_cases h : epub.metadata.creators = [] <;> simp [metaOf, h]
  · by_cases h : epub.metadata.publishers = [] <;> simp [metaOf, h]

theorem C7_witness :
    ((fun _ : String => some ([] : List Nat)) "b.epub" = some [] ∧
        (fun _ : String => (Except.ok epubC7 : Except String Epub))
          "b.epub" = Except.ok epubC7) ∧
      ∃ meta, parse_epub_meta (fun _ => some [])
          (fun _ => Except.ok epubC7) "b.epub" = Except.ok meta ∧
        (epubC7.metadata.titles = [] → meta.title = "Unknown Title") ∧
        (epubC7.metadata.creators = [] →
          meta.authors = ["Unknown Author"]) ∧
        (epubC7.metadata.publishers = [] →
          meta.publishers = ["Unknown Publisher"]) ∧
        meta.authors ≠ [] ∧ meta.publishers ≠ [] :=
  ⟨⟨rfl, rfl⟩,
    C7_parse_epub_meta_defaults (fun _ => some [])
      (fun _ => Except.ok epubC7) "b.epub" [] epubC7 rfl rfl⟩

/-- C8: for every readable file, `compute_checksum` returns the SHA-256
digest of the file bytes rendered as lowercase hex (32 digest bytes, all
output characters lowercase hex digits), and the result depends only on
the bytes — identical contents under any two paths or file systems yield
the identical digest string. -/
theorem C8_compute_checksum_sha256 (fs : String → Option (List Nat))
    (path : String) (bs : List Nat) (h : fs path = some bs) :
    compute_checksum fs path = Except.ok (hexOfBytes (sha256 bs)) ∧
      (sha256 bs).length = 32 ∧
      (∀ c ∈ (hexOfBytes (sha256 bs)).data, c ∈ hexAlphabet) ∧
      ∀ (fs2 : String → Option (List Nat)) (p2 : String),
        fs2 p2 = some bs →
          compute_checksum fs2 p2 = compute_checksum fs path := by
  have h1 : compute_checksum fs path =
      Except.ok (hexOfBytes (sha256 bs)) := by
    unfold compute_checksum
    rw [h]
  refine ⟨h1, sha256_length bs, hexOfBytes_chars _, ?_⟩
  intro fs2 p2 h2
  unfold compute_checksum
  rw [h, h2]

theorem C8_witness :
    ((fun _ : String => some ([] : List Nat)) "a.epub" = some [] ∧
        (fun _ : String => some ([] : List Nat)) "b.epub" = some []) ∧
      compute_checksum (fun _ => some []) "a.epub" =
        Except.ok (hexOfBytes (sha256 [])) ∧
      compute_checksum (fun _ => some []) "b.epub" =
        compute_checksum (fun _ => some []) "a.epub" :=
  ⟨⟨rfl, rfl⟩,
    (C8_compute_checksum_sha256 (fun _ => some []) "a.epub" [] rfl).1,
    (C8_compute_checksum_sha256 (fun _ => some []) "a.epub" [] rfl).2.2.2
      (fun _ => some []) "b.epub" rfl⟩

/-! ## Claim theorems for font extraction -/

theorem extract_fonts_aux (output_dir : String) (writeOk : String → Bool) :
    ∀ (ms : List Resource) (acc : List String × List (String × List Nat)),
      ms.foldl (fontStep output_dir writeOk) acc =
        (acc.1 ++ (selFonts output_dir writeOk ms).map
            (fun rb => joinDir output_dir (fontName rb.1)),
          acc.2 ++ (selFonts output_dir writeOk ms).map
            (fun rb => (joinDir output_dir (fontName rb.1), rb.2))) := by
  intro ms
  induction ms with
  | nil =>
    intro acc
    simp [selFonts]
  | cons r t ih =>
    intro acc
    rw [List.foldl_cons]
    by_cases hf : isFontMedia r.mediaType = true
    · cases hb : r.bytes with
      | none =>
        have hstep : fontStep output_dir writeOk acc r = acc := by
          simp [fontStep, hf, hb]
        have hsel : selFonts output_dir writeOk (r :: t) =
            selFonts output_dir writeOk t := by
          unfold selFonts
          rw [List.filterMap_cons]
          simp [hf, hb]
        rw [hstep, ih, hsel]
      | some bs =>
        by_cases hw : writeOk (joinDir output_dir (fontName r)) = true
        · have hstep : fontStep output_dir writeOk acc r =
              (acc.1 ++ [joinDir output_dir (fontName r)],
                acc.2 ++ [(joinDir output_dir (fontName r), bs)]) := by
            simp [fontStep, hf, hb, hw]
          have hsel : selFonts output_dir writeOk (r :: t) =
              (r, bs) :: selFonts output_dir writeOk t := by
            unfold selFonts
            rw [List.filterMap_cons]
            simp [hf, hb, List.filter_cons, hw]
          rw [hstep, ih, hsel]
          simp [List.append_assoc]
        · have hstep : fontStep output_dir writeOk acc r = acc := by
            simp [fontStep, hf, hb, hw]
          have hsel : selFonts output_dir writeOk (r :: t) =
              selFonts output_dir writeOk t := by
            unfold selFonts
            rw [List.filterMap_cons]
            simp [hf, hb, List.filter_cons, hw]
          rw [hstep, ih, hsel]
    · have hf' : isFontMedia r.mediaType = false := by simpa using hf
      have hstep : fontStep output_dir writeOk acc r = acc := by
        simp [fontStep, hf']
      have hsel : selFonts output_dir writeOk (r :: t) =
          selFonts output_dir writeOk t := by
        unfold selFonts
        rw [List.filterMap_cons]
        simp [hf']
      rw [hstep, ih, hsel]

theorem C9_counterexample :
    extract_fonts_to_disk epubC9 "out" (fun _ => true) =
        (["out/f.ttf", "out/f.ttf"],
          [("out/f.ttf", [1]), ("out/f.ttf", [2])]) ∧
      "out/f.ttf" ≠ "out/" ++ "font_" ++ "f2" := by
  exact ⟨by decide, by decide⟩

/-- C9 (amended): font extraction writes exactly the manifest resources
whose media type contains "font" or equals one of the legacy font types,
whose bytes are readable and whose write succeeds; each is written under
its declared file name, with the generated `font_{id}` name used only when
the declared name is unusable — name collisions are not detected. -/
theorem C9_extract_fonts_characterization (epub : Epub)
    (output_dir : String) (writeOk : String → Bool) :
    extract_fonts_to_disk epub output_dir writeOk =
        ((selectedFonts epub output_dir writeOk).map
            (fun rb => joinDir output_dir (fontName rb.1)),
          (selectedFonts epub output_dir writeOk).map
            (fun rb => (joinDir output_dir (fontName rb.1), rb.2))) ∧
      ∀ res bs, (res, bs) ∈ selectedFonts epub output_dir writeOk →
        res ∈ epub.manifest ∧ isFontMedia res.mediaType = true ∧
          res.bytes = some bs ∧
          writeOk (joinDir output_dir (fontName res)) = true := by
  constructor
  · have haux := extract_fonts_aux output_dir writeOk epub.manifest ([], [])
    unfold extract_fonts_to_disk selectedFonts
    simpa using haux
  · intro res bs hmem
    unfold selectedFonts selFonts at hmem
    obtain ⟨hmem1, hwf⟩ := List.mem_filter.mp hmem
    obtain ⟨r0, hr0, hpick⟩ := List.mem_filterMap.mp hmem1
    by_cases hf : isFontMedia r0.mediaType = true
    · rw [if_pos hf] at hpick
      obtain ⟨bs0, hb0, heq⟩ := Option.map_eq_some'.mp hpick
      have hr : r0 = res := congrArg Prod.fst heq
      have hbs : bs0 = bs := congrArg Prod.snd heq
      subst hr
      subst hbs
      exact ⟨hr0, hf, hb0, hwf⟩
    · rw [if_neg hf] at hpick
      simp at hpick

theorem C9_witness :
    extract_fonts_to_disk epubC9 "out2" (fun _ => true) =
      ((selectedFonts epubC9 "out2" (fun _ => true)).map
          (fun rb => joinDir "out2" (fontName rb.1)),
        (selectedFonts epubC9 "out2" (fun _ => true)).map
          (fun rb => (joinDir "out2" (fontName rb.1), rb.2))) :=
  (C9_extract_fonts_characterization epubC9 "out2" (fun _ => true)).1

end Stellaron
